import Mathlib

/-!
Shallow embedding of `src/app.py` (the "Top 10 Allocation" Streamlit dashboard)
and proofs about its core logic: the HTTP retry helper `_get_finnhub`, the FX
rate resolution chain `get_fx_gbp_usd_with_sources`, the market-data filter and
sort in `fetch_data`, and the allocation / effective-rate computation of the
refresh branch.

Modelling conventions, used throughout:
* Python floats are modelled as exact rationals (`ℚ`); a float literal such as
  `1.35` becomes the rational `27/20`.  Exact equalities proved here imply the
  floating-point tolerances stated in the specification.
* A non-finite float value (NaN or ±inf), as produced by pandas/numpy division
  by zero, is modelled as `none : Option ℚ`; arithmetic on columns propagates
  `none`, mirroring NaN propagation.
* Network and JSON behaviour is an explicit environment value: each provider's
  raw outcome is a field of `FxEnv`, each HTTP attempt of the retry loop is a
  value of `HttpOutcome`.  Inside try/except-guarded code, payload values are
  modelled as numeric-or-missing: a value that would make a guarded
  `float(...)` raise is subsumed by the caught-exception outcome.  The two
  unguarded `.get` calls of the resolver (app.py lines 92 and 110) are NOT
  protected: a truthy non-dict 200 JSON body there raises an uncaught
  `AttributeError`, which `FinnhubJson.nonDict` represents and the resolver
  models as the `FxResult.raised` outcome propagating to the caller.
* Side effects are made visible as traces: the retry helper returns the list of
  back-off sleeps it performed, and the FX resolver records the list of
  providers it invoked, in order, in the `calls` field.
-/

namespace Top10

/-- Outcome of a single HTTP attempt inside `_get_finnhub` (app.py lines
39-45): either the request or the JSON parse raises an exception, or a
response arrives with a status code and a parsed body. -/
inductive HttpOutcome (J : Type) where
  | exn : HttpOutcome J
  | resp (status : Nat) (body : J) : HttpOutcome J
deriving DecidableEq

/-- The body of an attempt outcome if and only if it is a status-200
response — the only case in which `_get_finnhub` returns (app.py lines
42-43); an exception or any other status code yields `none`. -/
def okBody {J : Type} (o : HttpOutcome J) : Option J :=
  match o with
  | .resp 200 j => some j
  | _ => none

/-- Whether an attempt outcome is a status-200 response. -/
def isOk {J : Type} (o : HttpOutcome J) : Bool :=
  (okBody o).isSome

/-- Trace of one `_get_finnhub` call: the value returned (`none` models the
Python `None` returned after exhausting retries), the number of requests
actually issued, and the back-off sleeps performed, in order. -/
structure FetchTrace (J : Type) where
  result : Option J
  attemptsMade : Nat
  sleeps : List ℚ
deriving DecidableEq

/-- Embedding of the retry loop of `_get_finnhub` (app.py lines 39-47).
`outcomes i` is the network outcome of the attempt with zero-based index `i`,
`i` is the current index and the last argument the number of attempts left.
A 200 response returns its body at once; any exception or non-200 status
falls through to `time.sleep(sleep * (2 ** i))` and the next iteration, and
the loop ends by returning `None`. -/
def getFinnhubAux {J : Type} (outcomes : Nat → HttpOutcome J) (sleep : ℚ) :
    Nat → Nat → FetchTrace J
  | _, 0 => ⟨none, 0, []⟩
  | i, n+1 =>
    match okBody (outcomes i) with
    | some j => ⟨some j, 1, []⟩
    | none =>
      let t := getFinnhubAux outcomes sleep (i+1) n
      ⟨t.result, t.attemptsMade + 1, sleep * 2 ^ i :: t.sleeps⟩

/-- Embedding of `_get_finnhub(path, params, retries, sleep)` (app.py lines
35-47), abstracted over the network behaviour `outcomes`. -/
def getFinnhub {J : Type} (outcomes : Nat → HttpOutcome J) (retries : Nat)
    (sleep : ℚ) : FetchTrace J :=
  getFinnhubAux outcomes sleep 0 retries

/-- Default `retries=3` of `_get_finnhub` (app.py line 35). -/
def finnhubDefaultRetries : Nat := 3

/-- Default `sleep=0.6` of `_get_finnhub` (app.py line 35). -/
def finnhubDefaultSleep : ℚ := 3/5

/-- Outcome of one ECB-style provider call (app.py lines 63-73 and 76-87):
either some exception is raised during the request or JSON parsing, or a
payload arrives whose relevant rate field (`rates.USD` resp. `rates.GBP`) is
a number or missing. -/
inductive EcbResult where
  | exn (msg : String) : EcbResult
  | payload (v : Option ℚ) : EcbResult
deriving DecidableEq

/-- Payload of `_get_finnhub("forex/rates", base=GBP)` (app.py lines 90-99):
whether `data.get("quote")` is a dict, and the value of `quote.USD` if any. -/
structure RatesJson where
  quoteIsDict : Bool
  usd : Option ℚ
deriving DecidableEq

/-- Payload of a `forex/candle` call (app.py lines 104-116): the status field
`s` and the list `c` of closes. -/
structure CandleJson where
  s : String
  c : List ℚ
deriving DecidableEq

/-- A `_get_finnhub` result as seen by the resolver's unguarded code
(app.py lines 90-92 and 104-110): `falsy` covers `None` (retries exhausted)
and falsy payloads (the `if data and ...` / `if candles and ...` guards
short-circuit on these), `dict` a truthy dict payload, and `nonDict` a
truthy 200 JSON body that is not a dict (a list, string or number) — on
which the unguarded `data.get("quote")` / `candles.get("s")` raises an
uncaught `AttributeError`. -/
inductive FinnhubJson (P : Type) where
  | falsy : FinnhubJson P
  | dict (p : P) : FinnhubJson P
  | nonDict : FinnhubJson P
deriving DecidableEq

/-- Environment of one FX resolution: the raw outcome each provider would
produce if invoked. -/
structure FxEnv where
  ecbGbp : EcbResult
  ecbUsd : EcbResult
  rates : FinnhubJson RatesJson
  candle1 : FinnhubJson CandleJson
  candle5 : FinnhubJson CandleJson
  candle15 : FinnhubJson CandleJson
deriving DecidableEq

/-- A value recorded in the `details` diagnostics dict of
`get_fx_gbp_usd_with_sources`: a raw payload, an error string, or the
`fallback_used = True` flag. -/
inductive DVal where
  | rawEcb (v : Option ℚ) : DVal
  | errStr (msg : String) : DVal
  | rawRates (d : FinnhubJson RatesJson) : DVal
  | rawCandle (c : FinnhubJson CandleJson) : DVal
  | flag : DVal
deriving DecidableEq

/-- Result of `get_fx_gbp_usd_with_sources` (app.py line 52): the returned
tuple `(gbp_to_usd, usd_to_gbp, source_note, details_dict)`, plus the `calls`
trace listing the providers actually invoked, in order (making the sequence
of side effects visible to the theorems). -/
structure RateResult where
  rate : ℚ
  inv : ℚ
  source : String
  details : List (String × DVal)
  calls : List String
deriving DecidableEq

/-- The outcome of invoking one provider: it accepts with a
`(gbp_to_usd, usd_to_gbp)` pair and the chain returns, it fails (caught
exception, missing, falsy or unusable value) and the chain proceeds, or it
raises an uncaught exception that aborts the whole resolution. -/
inductive FxOutcome where
  | accept (g u : ℚ) : FxOutcome
  | fail : FxOutcome
  | crash : FxOutcome
deriving DecidableEq

/-- One provider of the FX chain: its diagnostics key, its source label, and
what invoking it against an environment yields — the diagnostics entries it
records before returning or raising, and its outcome. -/
structure Provider where
  key : String
  label : String
  attempt : FxEnv → List (String × DVal) × FxOutcome

/-- Provider 1, ECB with GBP base (app.py lines 63-73): on exception record
`ecb_gbp_base_error`; otherwise record the raw payload and accept iff the
`rates.USD` value `v` satisfies `v and float(v) > 0`, returning
`(v, 1.0 / v)`. -/
def ecbGbpAttempt (env : FxEnv) : List (String × DVal) × FxOutcome :=
  match env.ecbGbp with
  | .exn m => ([("ecb_gbp_base_error", DVal.errStr m)], .fail)
  | .payload v =>
    ([("ecb_gbp_base_raw", DVal.rawEcb v)],
      match v with
      | some g => if 0 < g then .accept g (1 / g) else .fail
      | none => .fail)

/-- Provider 2, ECB with USD base, inverted (app.py lines 76-87): accept iff
the `rates.GBP` value `u` satisfies `u and float(u) > 0`, returning
`(1.0 / u, u)`. -/
def ecbUsdAttempt (env : FxEnv) : List (String × DVal) × FxOutcome :=
  match env.ecbUsd with
  | .exn m => ([("ecb_usd_base_error", DVal.errStr m)], .fail)
  | .payload v =>
    ([("ecb_usd_base_raw", DVal.rawEcb v)],
      match v with
      | some u => if 0 < u then .accept (1 / u) u else .fail
      | none => .fail)

/-- Provider 3, Finnhub `forex/rates` (app.py lines 90-99): the raw data is
always recorded (even when `None`); accept iff the payload is a truthy
dict, its `quote` field is a dict and `quote.USD` is a truthy value `v` —
i.e. present and nonzero — returning `(v, 1.0 / v)`.  Note the code
performs NO positivity check here: any nonzero `v` is accepted.  A truthy
non-dict payload makes the unguarded `data.get("quote")` of line 92 raise
an uncaught `AttributeError`. -/
def finnhubRatesAttempt (env : FxEnv) : List (String × DVal) × FxOutcome :=
  (("finnhub_rates_raw", DVal.rawRates env.rates) :: [],
    match env.rates with
    | .dict j =>
      if j.quoteIsDict then
        match j.usd with
        | some v => if v ≠ 0 then .accept v (1 / v) else .fail
        | none => .fail
      else .fail
    | .falsy => .fail
    | .nonDict => .crash)

/-- One iteration of the candle loop of provider 4 (app.py lines 103-116):
record the raw candle payload; accept iff the payload is a truthy dict with
`s == "ok"`, a nonempty close list `c`, and a strictly positive last close
`g`, returning `(g, 1.0 / g)`.  A truthy non-dict payload makes the
unguarded `candles.get("s")` of line 110 raise an uncaught
`AttributeError`. -/
def candleProvider (key label : String) (sel : FxEnv → FinnhubJson CandleJson) :
    Provider :=
  ⟨key, label, fun env =>
    ([(key ++ "_raw", DVal.rawCandle (sel env))],
      match sel env with
      | .dict j =>
        if j.s = "ok" then
          match j.c.getLast? with
          | some g => if 0 < g then .accept g (1 / g) else .fail
          | none => .fail
        else .fail
      | .falsy => .fail
      | .nonDict => .crash)⟩

/-- The provider chain of `get_fx_gbp_usd_with_sources`, in the priority
order of app.py lines 62-116; the candle loop over resolutions
`("1", "5", "15")` is unrolled into its three iterations. -/
def fxProviders : List Provider :=
  [⟨"ecb_gbp_base", "ECB (GBP base)", ecbGbpAttempt⟩,
   ⟨"ecb_usd_base", "ECB (USD base, inverted)", ecbUsdAttempt⟩,
   ⟨"finnhub_rates", "Finnhub forex/rates", finnhubRatesAttempt⟩,
   candleProvider "finnhub_candle_1m" "Finnhub OANDA candle 1m" FxEnv.candle1,
   candleProvider "finnhub_candle_5m" "Finnhub OANDA candle 5m" FxEnv.candle5,
   candleProvider "finnhub_candle_15m" "Finnhub OANDA candle 15m" FxEnv.candle15]

/-- The hardcoded fallback rate `1.35` of app.py line 119, as an exact
rational. -/
def fallbackRate : ℚ := 27/20

/-- What a call of `get_fx_gbp_usd_with_sources` does: either it returns a
`RateResult`, or an uncaught exception (the `AttributeError` of app.py
line 92 or 110) propagates to the caller and no result is produced. -/
inductive FxResult where
  | ok (r : RateResult) : FxResult
  | raised : FxResult
deriving DecidableEq

/-- The returned `gbp_to_usd` of a resolver call.  The projection is only
meaningful on the `ok` outcome; on `raised` no value reaches the caller and
the default `0` is never relied upon — every theorem using this projection
does so under a hypothesis that excludes `raised`. -/
def FxResult.rate : FxResult → ℚ
  | .ok r => r.rate
  | .raised => 0

/-- The returned `usd_to_gbp` of a resolver call (see `FxResult.rate` for
the treatment of the `raised` outcome). -/
def FxResult.inv : FxResult → ℚ
  | .ok r => r.inv
  | .raised => 0

/-- The returned source note of a resolver call (see `FxResult.rate`). -/
def FxResult.source : FxResult → String
  | .ok r => r.source
  | .raised => ""

/-- The returned diagnostics of a resolver call (see `FxResult.rate`). -/
def FxResult.details : FxResult → List (String × DVal)
  | .ok r => r.details
  | .raised => []

/-- The providers invoked by a resolver call (see `FxResult.rate`). -/
def FxResult.calls : FxResult → List String
  | .ok r => r.calls
  | .raised => []

/-- Sequential execution of the provider chain (app.py lines 62-121):
invoke each provider in order, appending its diagnostics entries; stop and
return at the first accepted pair with that provider's source label; abort
with the propagating exception if a provider crashes; if every provider
falls through, set `fallback_used` in the diagnostics and return the
fallback rate `1.35` with its reciprocal and the label `"fallback 1.35"`
(app.py lines 118-121). -/
def runChain (env : FxEnv) :
    List Provider → List (String × DVal) → List String → FxResult
  | [], d, cs =>
    .ok ⟨fallbackRate, 1 / fallbackRate, "fallback 1.35",
      d ++ [("fallback_used", DVal.flag)], cs⟩
  | p :: ps, d, cs =>
    match (p.attempt env).2 with
    | .accept g u => .ok ⟨g, u, p.label, d ++ (p.attempt env).1, cs ++ [p.key]⟩
    | .fail => runChain env ps (d ++ (p.attempt env).1) (cs ++ [p.key])
    | .crash => .raised

/-- Embedding of `get_fx_gbp_usd_with_sources()` (app.py lines 50-121): run
the provider chain on an empty diagnostics dict. -/
def get_fx_gbp_usd_with_sources (env : FxEnv) : FxResult :=
  runChain env fxProviders [] []

/-- Diagnostics keys of the providers, in priority order. -/
def fxProviderKeys : List String := fxProviders.map Provider.key

/-- Source labels of the live providers, in priority order (the labels a
`RateResult` can carry when a live provider supplied the rate). -/
def fxLiveLabels : List String := fxProviders.map Provider.label

/-- Whether a diagnostics key `k` belongs to the provider of key `c`: the
code records entries under `<provider>_raw` or `<provider>_error` (the
`finnhub_rates` provider uses exactly `finnhub_rates_raw`, the candle
providers `finnhub_candle_<res>m_raw`). -/
def keyMatches (c k : String) : Bool :=
  (k == c ++ "_raw") || (k == c ++ "_error")

/-- Every call recorded in `cs` is documented in the diagnostics `d`: some
recorded entry has a key belonging to that provider. -/
def covers (d : List (String × DVal)) (cs : List String) : Prop :=
  ∀ c ∈ cs, (d.any fun kv => keyMatches c kv.1) = true

/-- Every provider fails for this environment without raising: each
attempt's outcome is a recorded failure, never an accepted pair and never
an uncaught exception. -/
def allProvidersFail (env : FxEnv) : Prop :=
  ∀ p ∈ fxProviders, (p.attempt env).2 = FxOutcome.fail

/-- Structural soundness of one provider: any accepted pair consists of a
rate and its exact reciprocal, and every invocation records at least one
diagnostics entry whose key begins with the provider's key. -/
def GoodProvider (p : Provider) : Prop :=
  (∀ env g u, (p.attempt env).2 = FxOutcome.accept g u → g * u = 1) ∧
  (∀ env, ((p.attempt env).1.any fun kv => keyMatches p.key kv.1) = true)

/-- One ticker's raw market data as resolved inside the `fetch_data` loop
(app.py lines 126-131): `priceRaw` is `float(q.get("c", 0)) if q else 0.0`
and `mcapBilRaw` is `float(p.get("marketCapitalization", 0)) if p else 0.0`
— the post-default numeric values (market cap in billions of dollars). -/
structure QuoteProfile where
  ticker : String
  priceRaw : ℚ
  mcapBilRaw : ℚ
deriving DecidableEq

/-- One row of the DataFrame built by `fetch_data` (app.py line 133):
ticker, price, and market cap in dollars (`mcap_bil * 1e9`). -/
structure Row where
  ticker : String
  price : ℚ
  mcap : ℚ
deriving DecidableEq

/-- The row-building filter of `fetch_data` (app.py lines 126-136): a ticker
contributes a row iff both `price > 0` and `mcap_bil > 0`, with market cap
scaled to dollars. -/
def filteredRows (md : List QuoteProfile) : List Row :=
  md.filterMap fun e =>
    if 0 < e.priceRaw ∧ 0 < e.mcapBilRaw then
      some ⟨e.ticker, e.priceRaw, e.mcapBilRaw * 10 ^ 9⟩
    else none

/-- Stable ascending insertion by market cap: the new row is placed before
the first existing row of market cap ≥ its own, so rows of equal market cap
keep their relative order. -/
def insertAsc (r : Row) : List Row → List Row
  | [] => [r]
  | x :: xs => if r.mcap ≤ x.mcap then r :: x :: xs else x :: insertAsc r xs

/-- Stable ascending insertion sort by market cap.  This models the
ascending argsort that numpy performs under pandas `sort_values`: for the
frames this app builds (at most the 10 fixed tickers), numpy's
`kind='quicksort'` introsort never partitions — arrays of at most 15
elements are handled directly by its insertion sort, which is stable
ascending. -/
def insSortAsc : List Row → List Row
  | [] => []
  | x :: xs => insertAsc x (insSortAsc xs)

/-- Embedding of `fetch_data` (app.py lines 124-140): build the filtered
rows, and return them sorted by `"Market Cap"` with `ascending=False`.
Pandas implements a descending `sort_values` by computing the ascending
argsort of the column and reversing that permutation (`nargsort` does
`indexer = indexer[::-1]` when `ascending` is false), so the result is the
reversal of the stable ascending order — which in particular reverses the
relative order of rows with exactly equal market caps.  The derived
`"Market Cap ($T)"` display column is omitted: it is `mcap / 1e12`,
determined by `mcap`, and never read by any later computation. -/
def fetch_data (md : List QuoteProfile) : List Row :=
  (insSortAsc (filteredRows md)).reverse

/-- Float division as performed by pandas/numpy on columns: a zero
denominator silently yields a non-finite value (NaN for `0/0`, ±inf
otherwise), modelled as `none`. -/
def fdiv (x y : ℚ) : Option ℚ :=
  if y = 0 then none else some (x / y)

/-- The total `df["Market Cap"].sum()` (app.py line 175). -/
def totalMcap (rows : List Row) : ℚ :=
  (rows.map fun r => r.mcap).sum

/-- One row of the allocation table (app.py lines 175-179): the fetched
columns plus `"Weight %"`, `"$ Allocation"`, `"£ Allocation"` and
`"Est. Shares"`.  Derived columns are `Option ℚ`: `none` models a
non-finite float (NaN/±inf). -/
structure ARow where
  ticker : String
  price : ℚ
  mcap : ℚ
  weight : Option ℚ
  usdAlloc : Option ℚ
  gbpAlloc : Option ℚ
  estShares : Option ℚ
deriving DecidableEq

/-- Embedding of the column computations of app.py lines 175-179, applied
row-wise: `Weight % = Market Cap / total_mcap`,
`$ Allocation = usd_budget * Weight %`,
`£ Allocation = $ Allocation * usd_to_gbp`,
`Est. Shares = $ Allocation / Price`. -/
def allocate (rows : List Row) (usdBudget usdToGbp : ℚ) : List ARow :=
  let total := totalMcap rows
  rows.map fun r =>
    let w := fdiv r.mcap total
    let usd := w.map fun x => usdBudget * x
    ⟨r.ticker, r.price, r.mcap, w, usd,
      usd.map fun x => x * usdToGbp,
      usd.bind fun x => fdiv x r.price⟩

/-- Float addition on possibly-non-finite values: any non-finite operand
makes the result non-finite (NaN propagation). -/
def addOpt (x y : Option ℚ) : Option ℚ :=
  x.bind fun a => y.map fun b => a + b

/-- The `.sum()` of a float column that may hold non-finite entries: any
non-finite entry makes the total non-finite (NaN propagation). -/
def colSum : List (Option ℚ) → Option ℚ
  | [] => some 0
  | x :: xs => addOpt x (colSum xs)

/-- Embedding of app.py line 198:
`effective_rate = (total_usd / total_gbp) if total_gbp else float("nan")`.
A NaN total is truthy in Python, and dividing by it again yields NaN; a zero
total takes the guarded branch and yields NaN. -/
def effective_rate (totUsd totGbp : Option ℚ) : Option ℚ :=
  match totGbp with
  | none => none
  | some g =>
    if g = 0 then none
    else
      match totUsd with
      | none => none
      | some u => some (u / g)

/-- Embedding of app.py line 199: `inverse_rate = (1.0 / effective_rate) if
(effective_rate and effective_rate > 0) else float("nan")`.  NaN is truthy
but `NaN > 0` is `False`, `0.0` is falsy, and a negative rate fails `> 0`,
so the reciprocal is taken exactly when the effective rate is a number
strictly greater than zero. -/
def inverse_rate (er : Option ℚ) : Option ℚ :=
  match er with
  | none => none
  | some e => if 0 < e then some (1 / e) else none

/-- Float division lifted to possibly-non-finite operands (used to state
what ratio of column totals the code reports). -/
def odiv (x y : Option ℚ) : Option ℚ :=
  match x, y with
  | some a, some b => fdiv a b
  | _, _ => none

/-- What the refresh branch produces (app.py lines 158-228): the explicit
no-data state (`st.warning` plus an empty table, lines 168-173), or the
allocation table together with the effective and inverse rates and the FX
source label, or an aborted refresh when the FX resolver's uncaught
exception propagates out of the spinner block of lines 162-164 (nothing is
rendered in that case).  The `eff` and `inv` fields carry the values of
app.py lines 198-199, which the code both shows in the caption (lines
202-206) and writes into the Excel export trailer (lines 214-215). -/
inductive RefreshView where
  | noData : RefreshView
  | table (rows : List ARow) (eff inv : Option ℚ) (src : String) : RefreshView
  | crashed : RefreshView
deriving DecidableEq

/-- Embedding of the refresh branch (app.py lines 158-228): fetch the data
(line 163), resolve the FX rate (line 164) — if the resolver raises, the
refresh aborts here, before the `df.empty` check of line 167 — otherwise
convert the budget (`usd_budget = gbp_budget * gbp_to_usd`, line 165) and
either render the no-data state or compute the allocation columns, the
column totals (lines 195-196) and the effective and inverse rates. -/
def refresh (md : List QuoteProfile) (env : FxEnv) (gbpBudget : ℚ) :
    RefreshView :=
  let df := fetch_data md
  match get_fx_gbp_usd_with_sources env with
  | .raised => .crashed
  | .ok fx =>
    let usdBudget := gbpBudget * fx.rate
    if df = [] then .noData
    else
      let rows := allocate df usdBudget fx.inv
      let totUsd := colSum (rows.map fun a => a.usdAlloc)
      let totGbp := colSum (rows.map fun a => a.gbpAlloc)
      .table rows (effective_rate totUsd totGbp)
        (inverse_rate (effective_rate totUsd totGbp)) fx.source

/-- The total market cap as recomputed from allocation rows (the `mcap`
column is carried unchanged through `allocate`). -/
def allocTotal (rows : List ARow) : ℚ :=
  (rows.map fun a => a.mcap).sum

/-- The `min_value=0` bound of the budget `st.number_input` (app.py line
156): the widget admits a budget of zero. -/
def budgetMin : ℚ := 0

/-- Concrete market data realizing the specification's worked example:
tickers AAA and BBB with prices 100 and 50 and market caps 900 and 100
dollars (`mcap_bil * 1e9 = 900` resp. `100`). -/
def mdExample : List QuoteProfile :=
  [⟨"AAA", 100, 9/10^7⟩, ⟨"BBB", 50, 1/10^7⟩]

/-- Concrete FX environment whose first provider succeeds with rate 1.3. -/
def envEcb : FxEnv :=
  ⟨.payload (some (13/10)), .payload none, .falsy, .falsy, .falsy, .falsy⟩

/-- The allocation rows the refresh branch produces on `mdExample`, `envEcb`
and budget 1000: the specification example's expected numbers. -/
def rowsExample : List ARow :=
  [⟨"AAA", 100, 900, some (9/10), some 1170, some 900, some (117/10)⟩,
   ⟨"BBB", 50, 100, some (1/10), some 130, some 100, some (13/5)⟩]

/-- Concrete FX environment in which every provider fails without raising:
both ECB calls raise caught exceptions, and every Finnhub call returns
`None`. -/
def envAllFail : FxEnv :=
  ⟨.exn "timeout", .exn "timeout", .falsy, .falsy, .falsy, .falsy⟩

/-- Concrete FX environment for the provider-3 acceptance flaw: providers 1
and 2 fail, Finnhub `forex/rates` reports the nonsensical value `-2`, and
the 1-minute candle provider would have reported the positive rate 1.3. -/
def envNegRates : FxEnv :=
  ⟨.exn "timeout", .payload none, .dict ⟨true, some (-2)⟩,
    .dict ⟨"ok", [13/10]⟩, .falsy, .falsy⟩

/-- Concrete FX environment on which the resolver crashes: providers 1 and
2 fail, and the Finnhub `forex/rates` call returns a 200 response whose
JSON body is truthy but not a dict, so `data.get("quote")` at app.py line
92 raises an uncaught `AttributeError`. -/
def envCrash : FxEnv :=
  ⟨.exn "timeout", .payload none, .nonDict, .falsy, .falsy, .falsy⟩

/-- Concrete market data with two tickers of exactly equal market cap, in
fetch order A then B. -/
def mdTie : List QuoteProfile :=
  [⟨"A", 1, 1⟩, ⟨"B", 1, 1⟩]

/-- A hypothetical non-empty instrument row with zero market cap (upstream
filtering prevents `fetch_data` from ever emitting such a row). -/
def rowZero : Row := ⟨"ZZZ", 10, 0⟩

/-- Concrete market data in which no ticker yields both a positive price
and a positive market cap. -/
def mdNoData : List QuoteProfile :=
  [⟨"AAPL", 0, 5⟩, ⟨"MSFT", 100, 0⟩]

/-- The allocation rows the refresh branch produces on `mdExample`, `envEcb`
and a zero budget: every allocation column is zero, so the home-currency
total is zero and the effective-rate guard fires. -/
def rowsZeroBudget : List ARow :=
  [⟨"AAA", 100, 900, some (9/10), some 0, some 0, some 0⟩,
   ⟨"BBB", 50, 100, some (1/10), some 0, some 0, some 0⟩]

/-- Appending further diagnostics entries preserves coverage of the calls
recorded so far. -/
theorem covers_append_right (d e : List (String × DVal)) (cs : List String)
    (h : covers d cs) : covers (d ++ e) cs := by
  intro c hc
  have hd := h c hc
  simp [List.any_append, hd]

/-- Recording a new call together with at least one diagnostics entry whose
key starts with the call's key preserves coverage. -/
theorem covers_extend (d e : List (String × DVal)) (cs : List String)
    (key : String) (h : covers d cs)
    (he : (e.any fun kv => keyMatches key kv.1) = true) :
    covers (d ++ e) (cs ++ [key]) := by
  intro c hc
  rcases List.mem_append.mp hc with h1 | h2
  · exact covers_append_right d e cs h c h1
  · simp only [List.mem_singleton] at h2
    subst h2
    simp [List.any_append, he]

/-- Provider 1 is structurally sound: accepted pairs are exact reciprocal
pairs and every invocation records an entry under its key. -/
theorem ecbGbp_good :
    GoodProvider ⟨"ecb_gbp_base", "ECB (GBP base)", ecbGbpAttempt⟩ := by
  constructor
  · intro env g u h
    rcases henv : env.ecbGbp with m | v
    · simp [ecbGbpAttempt, henv] at h
    · rcases v with _ | x
      · simp [ecbGbpAttempt, henv] at h
      · simp only [ecbGbpAttempt, henv] at h
        by_cases hx : 0 < x
        · rw [if_pos hx] at h
          simp only [FxOutcome.accept.injEq] at h
          obtain ⟨rfl, rfl⟩ := h
          rw [mul_one_div, div_self (ne_of_gt hx)]
        · rw [if_neg hx] at h
          exact absurd h (by simp)
  · intro env
    rcases henv : env.ecbGbp with m | v <;>
      simp [ecbGbpAttempt, henv, keyMatches]

/-- Provider 2 is structurally sound. -/
theorem ecbUsd_good :
    GoodProvider ⟨"ecb_usd_base", "ECB (USD base, inverted)", ecbUsdAttempt⟩ := by
  constructor
  · intro env g u h
    rcases henv : env.ecbUsd with m | v
    · simp [ecbUsdAttempt, henv] at h
    · rcases v with _ | x
      · simp [ecbUsdAttempt, henv] at h
      · simp only [ecbUsdAttempt, henv] at h
        by_cases hx : 0 < x
        · rw [if_pos hx] at h
          simp only [FxOutcome.accept.injEq] at h
          obtain ⟨rfl, rfl⟩ := h
          rw [one_div_mul_cancel (ne_of_gt hx)]
        · rw [if_neg hx] at h
          exact absurd h (by simp)
  · intro env
    rcases henv : env.ecbUsd with m | v <;>
      simp [ecbUsdAttempt, henv, keyMatches]

/-- Provider 3 is structurally sound: it only checks the accepted value to
be nonzero, and a nonzero value still produces an exact reciprocal pair. -/
theorem finnhubRates_good :
    GoodProvider ⟨"finnhub_rates", "Finnhub forex/rates", finnhubRatesAttempt⟩ := by
  constructor
  · intro env g u h
    rcases henv : env.rates with _ | j | _
    · simp [finnhubRatesAttempt, henv] at h
    · simp only [finnhubRatesAttempt, henv] at h
      rcases hq : j.quoteIsDict with _ | _
      · simp [hq] at h
      · rcases hv : j.usd with _ | x
        · simp [hq, hv] at h
        · simp only [hq, hv, if_true] at h
          by_cases hx : x ≠ 0
          · rw [if_pos hx] at h
            simp only [FxOutcome.accept.injEq] at h
            obtain ⟨rfl, rfl⟩ := h
            rw [mul_one_div, div_self hx]
          · rw [if_neg hx] at h
            exact absurd h (by simp)
    · simp [finnhubRatesAttempt, henv] at h
  · intro env
    simp [finnhubRatesAttempt, keyMatches]

/-- Any candle provider is structurally sound. -/
theorem candleProvider_good (key label : String)
    (sel : FxEnv → FinnhubJson CandleJson) :
    GoodProvider (candleProvider key label sel) := by
  constructor
  · intro env g u h
    rcases hsel : sel env with _ | j | _
    · simp [candleProvider, hsel] at h
    · simp only [candleProvider, hsel] at h
      by_cases hs : j.s = "ok"
      · rw [if_pos hs] at h
        rcases hlast : j.c.getLast? with _ | x
        · simp [hlast] at h
        · simp only [hlast] at h
          by_cases hx : 0 < x
          · rw [if_pos hx] at h
            simp only [FxOutcome.accept.injEq] at h
            obtain ⟨rfl, rfl⟩ := h
            rw [mul_one_div, div_self (ne_of_gt hx)]
          · rw [if_neg hx] at h
            exact absurd h (by simp)
      · rw [if_neg hs] at h
        exact absurd h (by simp)
    · simp [candleProvider, hsel] at h
  · intro env
    simp [candleProvider, keyMatches]

/-- Every provider of the chain is structurally sound. -/
theorem fxProviders_good : ∀ p ∈ fxProviders, GoodProvider p := by
  intro p hp
  simp only [fxProviders, List.mem_cons, List.not_mem_nil, or_false] at hp
  rcases hp with rfl | rfl | rfl | rfl | rfl | rfl
  · exact ecbGbp_good
  · exact ecbUsd_good
  · exact finnhubRates_good
  · exact candleProvider_good _ _ _
  · exact candleProvider_good _ _ _
  · exact candleProvider_good _ _ _

/-- The rate and inverse rate of any returned chain result are exact
reciprocals. -/
theorem runChain_rate_inv (env : FxEnv) :
    ∀ (ps : List Provider) (d : List (String × DVal)) (cs : List String)
      (r : RateResult),
      (∀ p ∈ ps, GoodProvider p) →
      runChain env ps d cs = .ok r → r.rate * r.inv = 1 := by
  intro ps
  induction ps with
  | nil =>
    intro d cs r _ hr
    simp only [runChain, FxResult.ok.injEq] at hr
    subst hr
    norm_num [fallbackRate]
  | cons p ps ih =>
    intro d cs r hgood hr
    rcases hatt : (p.attempt env).2 with ⟨g, u⟩ | _ | _
    · simp only [runChain, hatt, FxResult.ok.injEq] at hr
      subst hr
      exact (hgood p (List.mem_cons_self p ps)).1 env g u hatt
    · simp only [runChain, hatt] at hr
      exact ih _ _ r (fun q hq => hgood q (List.mem_cons_of_mem p hq)) hr
    · simp [runChain, hatt] at hr

/-- The calls a returned chain result records extend the accumulator by an
initial segment of the provider keys, in priority order. -/
theorem runChain_calls (env : FxEnv) :
    ∀ (ps : List Provider) (d : List (String × DVal)) (cs : List String)
      (r : RateResult),
      runChain env ps d cs = .ok r →
      ∃ n, n ≤ ps.length ∧ r.calls = cs ++ (ps.map Provider.key).take n := by
  intro ps
  induction ps with
  | nil =>
    intro d cs r hr
    simp only [runChain, FxResult.ok.injEq] at hr
    subst hr
    exact ⟨0, by simp⟩
  | cons p ps ih =>
    intro d cs r hr
    rcases hatt : (p.attempt env).2 with ⟨g, u⟩ | _ | _
    · simp only [runChain, hatt, FxResult.ok.injEq] at hr
      subst hr
      refine ⟨1, by simp, ?_⟩
      simp
    · simp only [runChain, hatt] at hr
      obtain ⟨n, hn, hcalls⟩ := ih (d ++ (p.attempt env).1) (cs ++ [p.key]) r hr
      refine ⟨n + 1, by simp [Nat.succ_le_succ hn], ?_⟩
      rw [hcalls]
      simp [List.take_succ_cons, List.append_assoc]
    · simp [runChain, hatt] at hr

/-- Every call a returned chain result records is covered by a diagnostics
entry. -/
theorem runChain_covered (env : FxEnv) :
    ∀ (ps : List Provider) (d : List (String × DVal)) (cs : List String)
      (r : RateResult),
      (∀ p ∈ ps, GoodProvider p) → covers d cs →
      runChain env ps d cs = .ok r → covers r.details r.calls := by
  intro ps
  induction ps with
  | nil =>
    intro d cs r _ hcov hr
    simp only [runChain, FxResult.ok.injEq] at hr
    subst hr
    exact covers_append_right d _ cs hcov
  | cons p ps ih =>
    intro d cs r hgood hcov hr
    have hext := covers_extend d (p.attempt env).1 cs p.key hcov
      ((hgood p (List.mem_cons_self p ps)).2 env)
    rcases hatt : (p.attempt env).2 with ⟨g, u⟩ | _ | _
    · simp only [runChain, hatt, FxResult.ok.injEq] at hr
      subst hr
      exact hext
    · simp only [runChain, hatt] at hr
      exact ih _ _ r (fun q hq => hgood q (List.mem_cons_of_mem p hq)) hext hr
    · simp [runChain, hatt] at hr

/-- A chain run does exactly one of three things: it falls through every
provider (each failing without raising) and returns the labelled fallback;
or it stops at the FIRST provider `i` whose acceptance test passes — every
earlier provider failed — returning exactly that provider's accepted pair
and having called exactly providers `0..i`; or the first non-failing
provider `i` crashes — every earlier provider failed — and the run aborts
with the propagating exception. -/
theorem runChain_cases (env : FxEnv) :
    ∀ (ps : List Provider) (d : List (String × DVal)) (cs : List String),
      (∃ r : RateResult, runChain env ps d cs = .ok r ∧
        r.source = "fallback 1.35" ∧ r.calls = cs ++ ps.map Provider.key ∧
        ∀ p ∈ ps, (p.attempt env).2 = FxOutcome.fail) ∨
      (∃ i, ∃ h : i < ps.length, ∃ r : RateResult,
        runChain env ps d cs = .ok r ∧
        r.source = (ps.get ⟨i, h⟩).label ∧
        ((ps.get ⟨i, h⟩).attempt env).2 = FxOutcome.accept r.rate r.inv ∧
        r.calls = cs ++ (ps.map Provider.key).take (i + 1) ∧
        ∀ j, ∀ hj : j < i,
          ((ps.get ⟨j, hj.trans h⟩).attempt env).2 = FxOutcome.fail) ∨
      (∃ i, ∃ h : i < ps.length, runChain env ps d cs = FxResult.raised ∧
        ((ps.get ⟨i, h⟩).attempt env).2 = FxOutcome.crash ∧
        ∀ j, ∀ hj : j < i,
          ((ps.get ⟨j, hj.trans h⟩).attempt env).2 = FxOutcome.fail) := by
  intro ps
  induction ps with
  | nil =>
    intro d cs
    left
    refine ⟨⟨fallbackRate, 1 / fallbackRate, "fallback 1.35",
      d ++ [("fallback_used", DVal.flag)], cs⟩, ?_, rfl, by simp, by simp⟩
    simp [runChain]
  | cons p ps ih =>
    intro d cs
    rcases hatt : (p.attempt env).2 with ⟨g, u⟩ | _ | _
    · right
      left
      refine ⟨0, by simp, ⟨g, u, p.label, d ++ (p.attempt env).1, cs ++ [p.key]⟩,
        by simp [runChain, hatt], rfl, hatt, by simp, ?_⟩
      intro j hj
      exact absurd hj (Nat.not_lt_zero j)
    · rcases ih (d ++ (p.attempt env).1) (cs ++ [p.key]) with
        ⟨r, hrun, hs, hc, hall⟩ | ⟨i, hi, r, hrun, hs, ha, hc, hprev⟩ |
        ⟨i, hi, hrun, hcr, hprev⟩
      · left
        refine ⟨r, by simpa [runChain, hatt] using hrun, hs, ?_, ?_⟩
        · rw [hc]
          simp [List.append_assoc]
        · intro q hq
          rcases List.mem_cons.mp hq with rfl | hq2
          · exact hatt
          · exact hall q hq2
      · right
        left
        refine ⟨i + 1, by simpa using Nat.succ_lt_succ hi, r,
          by simpa [runChain, hatt] using hrun, hs, ha, ?_, ?_⟩
        · rw [hc]
          simp [List.take_succ_cons, List.append_assoc]
        · intro j hj
          cases j with
          | zero => exact hatt
          | succ jp => exact hprev jp (by omega)
      · right
        right
        refine ⟨i + 1, by simpa using Nat.succ_lt_succ hi,
          by simpa [runChain, hatt] using hrun, hcr, ?_⟩
        intro j hj
        cases j with
        | zero => exact hatt
        | succ jp => exact hprev jp (by omega)
    · right
      right
      refine ⟨0, by simp, by simp [runChain, hatt], hatt, ?_⟩
      intro j hj
      exact absurd hj (Nat.not_lt_zero j)

/-- If every provider of a chain fails without raising, the run returns
the fallback. -/
theorem runChain_all_fail (env : FxEnv) :
    ∀ (ps : List Provider) (d : List (String × DVal)) (cs : List String),
      (∀ p ∈ ps, (p.attempt env).2 = FxOutcome.fail) →
      ∃ r : RateResult, runChain env ps d cs = .ok r ∧
        r.rate = fallbackRate ∧ r.inv = 1 / fallbackRate ∧
        r.source = "fallback 1.35" ∧ r.calls = cs ++ ps.map Provider.key ∧
        ("fallback_used", DVal.flag) ∈ r.details := by
  intro ps
  induction ps with
  | nil =>
    intro d cs _
    refine ⟨⟨fallbackRate, 1 / fallbackRate, "fallback 1.35",
      d ++ [("fallback_used", DVal.flag)], cs⟩, ?_, rfl, rfl, rfl, by simp, by simp⟩
    simp [runChain]
  | cons p ps ih =>
    intro d cs hall
    have hatt := hall p (List.mem_cons_self p ps)
    obtain ⟨r, hrun, h1, h2, h3, h4, h5⟩ :=
      ih (d ++ (p.attempt env).1) (cs ++ [p.key])
        fun q hq => hall q (List.mem_cons_of_mem p hq)
    refine ⟨r, by simpa [runChain, hatt] using hrun, h1, h2, h3, ?_, h5⟩
    rw [h4]
    simp [List.append_assoc]

/-- Behaviour of the retry loop from an arbitrary start index: at most `n`
further attempts are made, a returned body takes at least one attempt, the
sleeps performed are exactly `sleep * 2 ^ (i + k)` for each failed attempt
`k` (all attempts when the loop exhausts, all but the last when it
succeeds), and if every remaining attempt fails the loop returns `none`
after exactly `n` attempts. -/
theorem getFinnhubAux_spec {J : Type} (o : Nat → HttpOutcome J) (s : ℚ) :
    ∀ n i : Nat,
      (getFinnhubAux o s i n).attemptsMade ≤ n ∧
      ((getFinnhubAux o s i n).result.isSome = true →
        1 ≤ (getFinnhubAux o s i n).attemptsMade) ∧
      ((getFinnhubAux o s i n).result = none →
        (getFinnhubAux o s i n).sleeps =
          (List.range (getFinnhubAux o s i n).attemptsMade).map
            (fun k => s * 2 ^ (i + k))) ∧
      ((getFinnhubAux o s i n).result.isSome = true →
        (getFinnhubAux o s i n).sleeps =
          (List.range ((getFinnhubAux o s i n).attemptsMade - 1)).map
            (fun k => s * 2 ^ (i + k))) ∧
      ((∀ k, k < n → isOk (o (i + k)) = false) →
        (getFinnhubAux o s i n).result = none ∧
        (getFinnhubAux o s i n).attemptsMade = n) := by
  intro n
  induction n with
  | zero =>
    intro i
    simp [getFinnhubAux]
  | succ n ih =>
    intro i
    rcases hk : okBody (o i) with _ | j
    · obtain ⟨h1, h2, h3, h3s, h4⟩ := ih (i + 1)
      simp only [getFinnhubAux, hk]
      refine ⟨by omega, fun _ => by omega, ?_, ?_, ?_⟩
      · intro hres
        rw [h3 hres, List.range_succ_eq_map, List.map_cons, List.map_map]
        refine List.cons_eq_cons.mpr ⟨by norm_num, ?_⟩
        apply List.map_congr_left
        intro a _
        show s * 2 ^ (i + 1 + a) = s * 2 ^ (i + (a + 1))
        have harg : i + 1 + a = i + (a + 1) := by omega
        rw [harg]
      · intro hres
        have hone := h2 hres
        rw [h3s hres]
        have hsub : (getFinnhubAux o s (i + 1) n).attemptsMade + 1 - 1 =
            ((getFinnhubAux o s (i + 1) n).attemptsMade - 1) + 1 := by omega
        rw [hsub, List.range_succ_eq_map, List.map_cons, List.map_map]
        refine List.cons_eq_cons.mpr ⟨by norm_num, ?_⟩
        apply List.map_congr_left
        intro a _
        show s * 2 ^ (i + 1 + a) = s * 2 ^ (i + (a + 1))
        have harg : i + 1 + a = i + (a + 1) := by omega
        rw [harg]
      · intro hall
        have hrec := h4 (by
          intro k hkn
          have hsh := hall (k + 1) (by omega)
          have harg : i + 1 + k = i + (k + 1) := by omega
          rw [harg]
          exact hsh)
        exact ⟨hrec.1, by omega⟩
    · simp only [getFinnhubAux, hk]
      refine ⟨by omega, fun _ => le_refl 1, ?_, ?_, ?_⟩
      · intro hres
        exact absurd hres (by simp)
      · intro
        simp
      · intro hall
        exact absurd (hall 0 (by omega)) (by simp [isOk, hk])

/-- Claim C9: the fetch-with-retry primitive `_get_finnhub` performs at most
`maxAttempts` attempts; the back-off sleep following the failed attempt of
zero-based index `k` is `baseDelay * 2 ^ k` (performed after every failed
attempt: all of them when the loop exhausts, all but the final successful
one otherwise); and when every attempt fails — any exception or non-200
status — it returns the failure value `None` rather than raising. -/
theorem retry_backoff {J : Type} (o : Nat → HttpOutcome J) (maxAttempts : Nat)
    (baseDelay : ℚ) :
    (getFinnhub o maxAttempts baseDelay).attemptsMade ≤ maxAttempts ∧
    ((getFinnhub o maxAttempts baseDelay).result = none →
      (getFinnhub o maxAttempts baseDelay).sleeps =
        (List.range (getFinnhub o maxAttempts baseDelay).attemptsMade).map
          (fun k => baseDelay * 2 ^ k)) ∧
    ((getFinnhub o maxAttempts baseDelay).result.isSome = true →
      (getFinnhub o maxAttempts baseDelay).sleeps =
        (List.range ((getFinnhub o maxAttempts baseDelay).attemptsMade - 1)).map
          (fun k => baseDelay * 2 ^ k)) ∧
    ((∀ k, k < maxAttempts → isOk (o k) = false) →
      (getFinnhub o maxAttempts baseDelay).result = none ∧
      (getFinnhub o maxAttempts baseDelay).attemptsMade = maxAttempts) := by
  obtain ⟨h1, h2, h3, h3s, h4⟩ := getFinnhubAux_spec o baseDelay maxAttempts 0
  refine ⟨h1, ?_, ?_, fun hall => h4 (by simpa using hall)⟩
  · intro hres
    simpa using h3 hres
  · intro hres
    simpa using h3s hres

/-- Witness for claim C9, at the concrete input where all three default
attempts raise: the hypothesis holds and the primitive returns `None` after
exactly three attempts. -/
theorem retry_backoff_witness :
    (getFinnhub (fun _ => (HttpOutcome.exn : HttpOutcome ℚ)) 3 (3/5)).result = none ∧
    (getFinnhub (fun _ => (HttpOutcome.exn : HttpOutcome ℚ)) 3 (3/5)).attemptsMade = 3 := by
  have hf : ∀ k, k < 3 → isOk ((fun _ => HttpOutcome.exn : Nat → HttpOutcome ℚ) k) = false := by
    intro k _
    rfl
  exact (retry_backoff (fun _ => (HttpOutcome.exn : HttpOutcome ℚ)) 3 (3/5)).2.2.2 hf

/-- Claim C4 (amended): the resolver iterates providers strictly in
priority order.  Whenever it returns a result, the inverse rate is the
exact reciprocal of the returned rate from the same resolution, every
attempted provider (including a successful one) left a diagnostics entry
under its own key, and the calls form an initial segment of the provider
order.  Moreover exactly one of three things happened: every provider
failed without raising and the labelled fallback was returned; or the
resolver stopped at the FIRST provider whose acceptance test passed —
every earlier provider failed — returning exactly that provider's pair and
invoking no later provider; or the first non-failing provider raised (a
truthy non-dict payload at one of the two unguarded Finnhub `.get` calls)
and the resolution aborted with the propagating exception.  The acceptance
tests require a strictly positive parsed value for the two ECB providers
and the candle providers, but only a present, nonzero value for the
Finnhub `forex/rates` provider (no positivity or finiteness check there). -/
theorem fx_chain_behavior (env : FxEnv) :
    (∀ r : RateResult, get_fx_gbp_usd_with_sources env = .ok r →
      r.rate * r.inv = 1 ∧
      covers r.details r.calls ∧
      ∃ n, n ≤ 6 ∧ r.calls = fxProviderKeys.take n) ∧
    ((∃ r : RateResult, get_fx_gbp_usd_with_sources env = .ok r ∧
        r.source = "fallback 1.35" ∧ r.calls = fxProviderKeys ∧
        ∀ p ∈ fxProviders, (p.attempt env).2 = FxOutcome.fail) ∨
      (∃ i, ∃ h : i < fxProviders.length, ∃ r : RateResult,
        get_fx_gbp_usd_with_sources env = .ok r ∧
        r.source = (fxProviders.get ⟨i, h⟩).label ∧
        ((fxProviders.get ⟨i, h⟩).attempt env).2 = FxOutcome.accept r.rate r.inv ∧
        r.calls = fxProviderKeys.take (i + 1) ∧
        ∀ j, ∀ hj : j < i,
          ((fxProviders.get ⟨j, hj.trans h⟩).attempt env).2 = FxOutcome.fail) ∨
      (∃ i, ∃ h : i < fxProviders.length,
        get_fx_gbp_usd_with_sources env = FxResult.raised ∧
        ((fxProviders.get ⟨i, h⟩).attempt env).2 = FxOutcome.crash ∧
        ∀ j, ∀ hj : j < i,
          ((fxProviders.get ⟨j, hj.trans h⟩).attempt env).2 = FxOutcome.fail)) := by
  constructor
  · intro r hr
    refine ⟨runChain_rate_inv env fxProviders [] [] r fxProviders_good hr,
      runChain_covered env fxProviders [] [] r fxProviders_good
        (fun c hc => absurd hc (List.not_mem_nil c)) hr, ?_⟩
    obtain ⟨n, hn, hc⟩ := runChain_calls env fxProviders [] [] r hr
    exact ⟨n, by simpa using hn, by simpa [fxProviderKeys] using hc⟩
  · rcases runChain_cases env fxProviders [] [] with
      ⟨r, hrun, hs, hc, hall⟩ | ⟨i, hi, r, hrun, hs, ha, hc, hprev⟩ |
      ⟨i, hi, hrun, hcr, hprev⟩
    · exact Or.inl ⟨r, hrun, hs, by simpa [fxProviderKeys] using hc, hall⟩
    · exact Or.inr (Or.inl ⟨i, hi, r, hrun, hs, ha,
        by simpa [fxProviderKeys] using hc, hprev⟩)
    · exact Or.inr (Or.inr ⟨i, hi, hrun, hcr, hprev⟩)

/-- Witness for claim C4's amended theorem at a concrete environment whose
first provider succeeds with rate 1.3. -/
theorem fx_chain_behavior_witness :
    (get_fx_gbp_usd_with_sources envEcb).rate *
      (get_fx_gbp_usd_with_sources envEcb).inv = 1 ∧
    covers (get_fx_gbp_usd_with_sources envEcb).details
      (get_fx_gbp_usd_with_sources envEcb).calls := by
  have hEval : get_fx_gbp_usd_with_sources envEcb =
      .ok ⟨13/10, 10/13, "ECB (GBP base)",
        [("ecb_gbp_base_raw", DVal.rawEcb (some (13/10)))], ["ecb_gbp_base"]⟩ := by
    norm_num [get_fx_gbp_usd_with_sources, fxProviders, runChain, ecbGbpAttempt, envEcb]
  obtain ⟨h1, h2, _⟩ := (fx_chain_behavior envEcb).1 _ hEval
  rw [hEval]
  exact ⟨h1, h2⟩

/-- Counterexample for claim C4 as stated: with providers 1 and 2 failing,
Finnhub `forex/rates` reporting `-2` and the 1-minute candle provider
holding the strictly positive rate `1.3`, the resolver stops at provider 3
and returns the non-positive rate `-2` — it does not continue to the first
provider with a numeric, finite, strictly positive rate (the candle
provider, which is never invoked). -/
theorem fx_positivity_counterexample :
    (get_fx_gbp_usd_with_sources envNegRates).rate = -2 ∧
    (get_fx_gbp_usd_with_sources envNegRates).source = "Finnhub forex/rates" ∧
    ¬ 0 < (get_fx_gbp_usd_with_sources envNegRates).rate ∧
    "finnhub_candle_1m" ∉ (get_fx_gbp_usd_with_sources envNegRates).calls ∧
    ((candleProvider "finnhub_candle_1m" "Finnhub OANDA candle 1m"
        FxEnv.candle1).attempt envNegRates).2 = FxOutcome.accept (13/10) (10/13) ∧
    0 < (13 : ℚ)/10 := by
  refine ⟨?_, ?_, ?_, ?_, ?_, by norm_num⟩ <;>
    norm_num [get_fx_gbp_usd_with_sources, fxProviders, runChain, ecbGbpAttempt,
      ecbUsdAttempt, finnhubRatesAttempt, candleProvider, envNegRates,
      FxResult.rate, FxResult.source, FxResult.calls] <;>
    decide

/-- Claim C5 (amended): if every FX provider fails without raising — any
combination of caught exceptions, missing or falsy payloads, and unusable
values — the resolver returns the hardcoded fallback rate `1.35` with its
exact reciprocal, under the source label `"fallback 1.35"`, which differs
from every live-provider label; the diagnostics cover every attempted
provider and record `fallback_used`, and such failures never propagate to
the caller.  (The resolver is NOT exception-free under every combination of
provider outcomes: the crash counterexample shows a truthy non-dict payload
raising out of it.) -/
theorem fx_all_fail_fallback (env : FxEnv) (h : allProvidersFail env) :
    ∃ r : RateResult, get_fx_gbp_usd_with_sources env = .ok r ∧
      r.rate = fallbackRate ∧ r.inv = 1 / fallbackRate ∧
      r.rate * r.inv = 1 ∧ r.source = "fallback 1.35" ∧
      (∀ p ∈ fxProviders, r.source ≠ p.label) ∧
      r.calls = fxProviderKeys ∧ covers r.details r.calls ∧
      ("fallback_used", DVal.flag) ∈ r.details := by
  obtain ⟨r, hrun, h1, h2, h3, h4, h5⟩ := runChain_all_fail env fxProviders [] [] h
  refine ⟨r, hrun, h1, h2, by rw [h1, h2]; norm_num [fallbackRate], h3, ?_,
    by simpa [fxProviderKeys] using h4,
    runChain_covered env fxProviders [] [] r fxProviders_good
      (fun c hc => absurd hc (List.not_mem_nil c)) hrun, h5⟩
  intro p hp
  rw [h3]
  simp only [fxProviders, List.mem_cons, List.not_mem_nil, or_false] at hp
  rcases hp with rfl | rfl | rfl | rfl | rfl | rfl <;> simp [candleProvider]

/-- Witness for claim C5's amended theorem at the concrete environment
where both ECB calls raise caught exceptions and every Finnhub call
returns `None`. -/
theorem fx_all_fail_fallback_witness :
    (get_fx_gbp_usd_with_sources envAllFail).rate = fallbackRate ∧
    (get_fx_gbp_usd_with_sources envAllFail).source = "fallback 1.35" := by
  have haf : allProvidersFail envAllFail := by
    intro p hp
    simp only [fxProviders, List.mem_cons, List.not_mem_nil, or_false] at hp
    rcases hp with rfl | rfl | rfl | rfl | rfl | rfl <;>
      norm_num [ecbGbpAttempt, ecbUsdAttempt, finnhubRatesAttempt, candleProvider,
        envAllFail]
  obtain ⟨r, hrun, h1, _, _, h4, _⟩ := fx_all_fail_fallback envAllFail haf
  rw [hrun]
  exact ⟨h1, h4⟩

/-- Counterexample for claim C5 as stated: the resolver is not
exception-free under every combination of provider outcomes.  When
providers 1 and 2 fail and the Finnhub `forex/rates` call returns a 200
response whose JSON body is truthy but not a dict, the unguarded
`data.get("quote")` of app.py line 92 raises an uncaught `AttributeError`
that propagates to the caller: no fallback is reached, and the whole
refresh aborts before rendering anything. -/
theorem fx_crash_counterexample :
    get_fx_gbp_usd_with_sources envCrash = FxResult.raised ∧
    envCrash.rates = FinnhubJson.nonDict ∧
    refresh mdExample envCrash 1000 = RefreshView.crashed := by
  refine ⟨?_, rfl, ?_⟩ <;>
    norm_num [get_fx_gbp_usd_with_sources, fxProviders, runChain, ecbGbpAttempt,
      ecbUsdAttempt, finnhubRatesAttempt, candleProvider, envCrash, refresh]

/-- Stable insertion permutes: inserting `r` yields a permutation of
`r :: l`. -/
theorem insertAsc_perm (r : Row) : ∀ l : List Row, (insertAsc r l).Perm (r :: l) := by
  intro l
  induction l with
  | nil => simp [insertAsc]
  | cons x xs ih =>
    simp only [insertAsc]
    split_ifs with h
    · exact List.Perm.refl _
    · exact (ih.cons x).trans (List.Perm.swap r x xs)

/-- Insertion sort permutes its input. -/
theorem insSortAsc_perm : ∀ l : List Row, (insSortAsc l).Perm l := by
  intro l
  induction l with
  | nil => simp [insSortAsc]
  | cons x xs ih =>
    exact (insertAsc_perm x (insSortAsc xs)).trans (ih.cons x)

/-- Inserting into an ascending list keeps it ascending. -/
theorem insertAsc_sorted (r : Row) :
    ∀ l : List Row, l.Pairwise (fun a b => a.mcap ≤ b.mcap) →
      (insertAsc r l).Pairwise (fun a b => a.mcap ≤ b.mcap) := by
  intro l
  induction l with
  | nil =>
    intro _
    simp [insertAsc]
  | cons x xs ih =>
    intro h
    obtain ⟨hx, htl⟩ := List.pairwise_cons.mp h
    simp only [insertAsc]
    split_ifs with hr
    · refine List.pairwise_cons.mpr ⟨?_, h⟩
      intro b hb
      rcases List.mem_cons.mp hb with rfl | hb2
      · exact hr
      · exact le_trans hr (hx b hb2)
    · refine List.pairwise_cons.mpr ⟨?_, ih htl⟩
      intro b hb
      rcases List.mem_cons.mp ((insertAsc_perm r xs).mem_iff.mp hb) with rfl | hb2
      · exact le_of_lt (lt_of_not_le hr)
      · exact hx b hb2

/-- Insertion sort produces an ascending list. -/
theorem insSortAsc_sorted :
    ∀ l : List Row, (insSortAsc l).Pairwise (fun a b => a.mcap ≤ b.mcap) := by
  intro l
  induction l with
  | nil => simp [insSortAsc]
  | cons x xs ih => exact insertAsc_sorted x (insSortAsc xs) ih

/-- Inserting a row of the key under scrutiny puts it before every other row
of that key: every row skipped over has strictly smaller market cap. -/
theorem insertAsc_filter_eq (k : ℚ) (r : Row) (hrk : r.mcap = k) :
    ∀ l : List Row,
      (insertAsc r l).filter (fun x => decide (x.mcap = k)) =
        r :: l.filter (fun x => decide (x.mcap = k)) := by
  intro l
  induction l with
  | nil => simp [insertAsc, hrk]
  | cons x xs ih =>
    simp only [insertAsc]
    split_ifs with h
    · simp [List.filter_cons, hrk]
    · have hxk : ¬ x.mcap = k := by
        intro hk
        exact h (le_of_eq (by rw [hrk, hk]))
      simp [List.filter_cons, hxk, ih]

/-- Inserting a row of a different key leaves that key's rows untouched. -/
theorem insertAsc_filter_ne (k : ℚ) (r : Row) (hrk : ¬ r.mcap = k) :
    ∀ l : List Row,
      (insertAsc r l).filter (fun x => decide (x.mcap = k)) =
        l.filter (fun x => decide (x.mcap = k)) := by
  intro l
  induction l with
  | nil => simp [insertAsc, hrk]
  | cons x xs ih =>
    simp only [insertAsc]
    split_ifs with h
    · simp [List.filter_cons, hrk]
    · simp [List.filter_cons, ih]

/-- Stability of the ascending insertion sort: the rows of any fixed market
cap appear in the sorted list exactly in their input order. -/
theorem insSortAsc_filter (k : ℚ) :
    ∀ l : List Row,
      (insSortAsc l).filter (fun x => decide (x.mcap = k)) =
        l.filter (fun x => decide (x.mcap = k)) := by
  intro l
  induction l with
  | nil => simp [insSortAsc]
  | cons x xs ih =>
    simp only [insSortAsc]
    by_cases hxk : x.mcap = k
    · rw [insertAsc_filter_eq k x hxk, ih]
      simp [List.filter_cons, hxk]
    · rw [insertAsc_filter_ne k x hxk, ih]
      simp [List.filter_cons, hxk]

/-- Claim C7 (amended): `fetch_data` returns the filtered rows sorted by
market cap descending, but rows of exactly equal market cap appear in
REVERSED fetch order, not original fetch order: pandas `sort_values` with
`ascending=False` reverses an ascending argsort (and its default
`kind='quicksort'` is not even contractually stable). -/
theorem sort_desc_ties_reversed (md : List QuoteProfile) :
    (fetch_data md).Pairwise (fun a b => b.mcap ≤ a.mcap) ∧
    (fetch_data md).Perm (filteredRows md) ∧
    ∀ k : ℚ, (fetch_data md).filter (fun r => decide (r.mcap = k)) =
      ((filteredRows md).filter fun r => decide (r.mcap = k)).reverse := by
  refine ⟨?_, ?_, ?_⟩
  · rw [fetch_data, List.pairwise_reverse]
    exact insSortAsc_sorted (filteredRows md)
  · exact (List.reverse_perm _).trans (insSortAsc_perm (filteredRows md))
  · intro k
    rw [fetch_data, List.filter_reverse, insSortAsc_filter]

/-- Witness for claim C7's amended theorem: the descending sortedness and
the tie-reversal law evaluated at the tied market cap of `mdTie`. -/
theorem sort_desc_ties_reversed_witness :
    (fetch_data mdTie).Pairwise (fun a b => b.mcap ≤ a.mcap) ∧
    (fetch_data mdTie).filter (fun r => decide (r.mcap = 10 ^ 9)) =
      ((filteredRows mdTie).filter fun r => decide (r.mcap = 10 ^ 9)).reverse :=
  ⟨(sort_desc_ties_reversed mdTie).1, (sort_desc_ties_reversed mdTie).2.2 (10 ^ 9)⟩

/-- Counterexample for claim C7 as stated: two instruments with exactly
equal market caps, fetched in the order A then B, come out of `fetch_data`
in the order B then A — the reverse of their fetch order, not the original
order a stable descending sort would keep. -/
theorem sort_tie_counterexample :
    (fetch_data mdTie).map (fun r => r.ticker) = ["B", "A"] ∧
    (filteredRows mdTie).map (fun r => r.ticker) = ["A", "B"] ∧
    (["B", "A"] : List String) ≠ ["A", "B"] := by
  refine ⟨?_, ?_, by decide⟩ <;>
    norm_num [fetch_data, filteredRows, insSortAsc, insertAsc, mdTie, List.filterMap]

/-- A column of plain (finite) values sums to its plain sum. -/
theorem colSum_map_some {α : Type} (f : α → ℚ) :
    ∀ l : List α, colSum (l.map fun x => some (f x)) = some ((l.map f).sum) := by
  intro l
  induction l with
  | nil => simp [colSum]
  | cons x xs ih => simp [colSum, addOpt, ih]

/-- Dividing a summed column by a constant divides its sum. -/
theorem sum_map_div (c : ℚ) (f : Row → ℚ) :
    ∀ l : List Row, (l.map fun r => f r / c).sum = (l.map f).sum / c := by
  intro l
  induction l with
  | nil => simp
  | cons x xs ih => simp [ih, add_div]

/-- Scaling a summed column by a constant on the left scales its sum. -/
theorem sum_map_mul_const (c : ℚ) (f : Row → ℚ) :
    ∀ l : List Row, (l.map fun r => c * f r).sum = c * (l.map f).sum := by
  intro l
  induction l with
  | nil => simp
  | cons x xs ih => simp [ih, mul_add]

/-- Scaling a summed column by a constant on the right scales its sum. -/
theorem sum_map_mul_const_right (c : ℚ) (f : Row → ℚ) :
    ∀ l : List Row, (l.map fun r => f r * c).sum = (l.map f).sum * c := by
  intro l
  induction l with
  | nil => simp
  | cons x xs ih => simp [ih, add_mul]

/-- Every row passing the `fetch_data` filter has a strictly positive price
and a strictly positive market cap. -/
theorem mem_filteredRows_pos (md : List QuoteProfile) (r : Row)
    (hr : r ∈ filteredRows md) : 0 < r.price ∧ 0 < r.mcap := by
  obtain ⟨e, _, hcond⟩ := List.mem_filterMap.mp hr
  by_cases hc : 0 < e.priceRaw ∧ 0 < e.mcapBilRaw
  · rw [if_pos hc] at hcond
    obtain rfl := Option.some.inj hcond
    exact ⟨hc.1, mul_pos hc.2 (by norm_num)⟩
  · rw [if_neg hc] at hcond
    exact absurd hcond (by simp)

/-- Sorting does not change which rows are present. -/
theorem mem_fetch_data (md : List QuoteProfile) (r : Row) :
    r ∈ fetch_data md ↔ r ∈ filteredRows md := by
  rw [fetch_data, List.mem_reverse]
  exact (insSortAsc_perm (filteredRows md)).mem_iff

/-- A non-empty fetched DataFrame has strictly positive total market cap. -/
theorem totalMcap_pos (md : List QuoteProfile) (h : fetch_data md ≠ []) :
    0 < totalMcap (fetch_data md) := by
  apply List.sum_pos
  · intro x hx
    obtain ⟨r, hr, rfl⟩ := List.mem_map.mp hx
    exact (mem_filteredRows_pos md r ((mem_fetch_data md r).mp hr)).2
  · simpa using h

/-- With a nonzero total market cap and nonzero prices, every derived
column of the allocation is finite and given by the column formulas. -/
theorem allocate_eval (rows : List Row) (B u : ℚ) (hT : totalMcap rows ≠ 0)
    (hp : ∀ r ∈ rows, r.price ≠ 0) :
    allocate rows B u = rows.map fun r =>
      ⟨r.ticker, r.price, r.mcap, some (r.mcap / totalMcap rows),
        some (B * (r.mcap / totalMcap rows)),
        some (B * (r.mcap / totalMcap rows) * u),
        some (B * (r.mcap / totalMcap rows) / r.price)⟩ := by
  unfold allocate
  apply List.map_congr_left
  intro r hr
  simp [fdiv, hT, hp r hr]

/-- The allocation keeps the market-cap column unchanged. -/
theorem allocate_mcap (rows : List Row) (B u : ℚ) :
    (allocate rows B u).map (fun a => a.mcap) = rows.map fun r => r.mcap := by
  simp [allocate]

/-- A rendered table implies the resolver returned (the refresh aborts
before the empty-check when the resolver raises). -/
theorem refresh_table_not_raised (md : List QuoteProfile) (env : FxEnv) (b : ℚ)
    (rows : List ARow) (eff inv : Option ℚ) (src : String)
    (h : refresh md env b = .table rows eff inv src) :
    get_fx_gbp_usd_with_sources env ≠ FxResult.raised := by
  intro hres
  simp [refresh, hres] at h

/-- Inversion of the refresh branch when it renders a table: the resolver
returned, the fetched DataFrame was non-empty, the rows are the allocation
of the fetched rows at the converted budget, and the reported rates are
computed from the column totals of exactly those rows. -/
theorem refresh_table_inv (md : List QuoteProfile) (env : FxEnv) (b : ℚ)
    (rows : List ARow) (eff inv : Option ℚ) (src : String)
    (h : refresh md env b = .table rows eff inv src) :
    fetch_data md ≠ [] ∧
    rows = allocate (fetch_data md)
      (b * (get_fx_gbp_usd_with_sources env).rate)
      (get_fx_gbp_usd_with_sources env).inv ∧
    eff = effective_rate (colSum (rows.map fun a => a.usdAlloc))
      (colSum (rows.map fun a => a.gbpAlloc)) ∧
    inv = inverse_rate eff ∧
    src = (get_fx_gbp_usd_with_sources env).source := by
  rcases hres : get_fx_gbp_usd_with_sources env with fx | _
  · simp only [refresh, hres] at h
    by_cases hdf : fetch_data md = []
    · rw [if_pos hdf] at h
      exact absurd h (by simp)
    · rw [if_neg hdf] at h
      simp only [RefreshView.table.injEq] at h
      obtain ⟨hrows, heff, hinv, hsrc⟩ := h
      subst hrows
      refine ⟨hdf, rfl, heff.symm, ?_, hsrc.symm⟩
      rw [← hinv, heff]
  · exact absurd hres (refresh_table_not_raised md env b rows eff inv src h)

/-- The reciprocal invariant of the resolver on any returned result. -/
theorem fx_rate_inv (env : FxEnv) (r : RateResult)
    (h : get_fx_gbp_usd_with_sources env = .ok r) : r.rate * r.inv = 1 :=
  runChain_rate_inv env fxProviders [] [] r fxProviders_good h

/-- The reciprocal invariant through the result projections, for any
environment on which the resolver does not raise. -/
theorem fx_rate_inv_proj (env : FxEnv)
    (hne : get_fx_gbp_usd_with_sources env ≠ FxResult.raised) :
    (get_fx_gbp_usd_with_sources env).rate *
      (get_fx_gbp_usd_with_sources env).inv = 1 := by
  rcases hres : get_fx_gbp_usd_with_sources env with fx | _
  · exact fx_rate_inv env fx hres
  · exact absurd hres hne

/-- Column totals of an allocation with nonzero total market cap: weights
sum to 1, `$ Allocation` to the converted budget, `£ Allocation` to the
converted budget scaled back. -/
theorem allocate_colSums (rows : List Row) (B u : ℚ) (hT : totalMcap rows ≠ 0) :
    colSum ((allocate rows B u).map fun a => a.weight) = some 1 ∧
    colSum ((allocate rows B u).map fun a => a.usdAlloc) = some B ∧
    colSum ((allocate rows B u).map fun a => a.gbpAlloc) = some (B * u) := by
  have hw : (allocate rows B u).map (fun a => a.weight) =
      rows.map fun r => some (r.mcap / totalMcap rows) := by
    simp [allocate, fdiv, hT]
  have hu : (allocate rows B u).map (fun a => a.usdAlloc) =
      rows.map fun r => some (B * (r.mcap / totalMcap rows)) := by
    simp [allocate, fdiv, hT]
  have hg : (allocate rows B u).map (fun a => a.gbpAlloc) =
      rows.map fun r => some (B * (r.mcap / totalMcap rows) * u) := by
    simp [allocate, fdiv, hT]
  have hts : (rows.map fun r => r.mcap).sum = totalMcap rows := rfl
  refine ⟨?_, ?_, ?_⟩
  · rw [hw, colSum_map_some, sum_map_div (totalMcap rows) (fun r => r.mcap) rows,
      hts, div_self hT]
  · rw [hu, colSum_map_some, sum_map_mul_const B (fun r => r.mcap / totalMcap rows) rows,
      sum_map_div (totalMcap rows) (fun r => r.mcap) rows, hts, div_self hT, mul_one]
  · rw [hg, colSum_map_some,
      sum_map_mul_const_right u (fun r => B * (r.mcap / totalMcap rows)) rows,
      sum_map_mul_const B (fun r => r.mcap / totalMcap rows) rows,
      sum_map_div (totalMcap rows) (fun r => r.mcap) rows, hts, div_self hT, mul_one]

/-- Aggregate totals of a rendered table: the weights sum to exactly 1, the
`$ Allocation` column sums to exactly the converted budget, and the
`£ Allocation` column sums to exactly the home budget. -/
theorem refresh_sums (md : List QuoteProfile) (env : FxEnv) (b : ℚ)
    (rows : List ARow) (eff inv : Option ℚ) (src : String)
    (h : refresh md env b = .table rows eff inv src) :
    colSum (rows.map fun a => a.weight) = some 1 ∧
    colSum (rows.map fun a => a.usdAlloc) =
      some (b * (get_fx_gbp_usd_with_sources env).rate) ∧
    colSum (rows.map fun a => a.gbpAlloc) = some b := by
  obtain ⟨hdf, hrows, _, _, _⟩ := refresh_table_inv md env b rows eff inv src h
  have hT : totalMcap (fetch_data md) ≠ 0 := ne_of_gt (totalMcap_pos md hdf)
  obtain ⟨h1, h2, h3⟩ := allocate_colSums (fetch_data md)
    (b * (get_fx_gbp_usd_with_sources env).rate)
    (get_fx_gbp_usd_with_sources env).inv hT
  subst hrows
  refine ⟨h1, h2, ?_⟩
  rw [h3, mul_assoc,
    fx_rate_inv_proj env (refresh_table_not_raised md env b _ eff inv src h), mul_one]

/-- The guarded effective-rate expression equals float division of the two
column totals: a zero or non-finite home total yields NaN either way. -/
theorem effective_eq_odiv : ∀ tu tg : Option ℚ, effective_rate tu tg = odiv tu tg := by
  intro tu tg
  rcases tu with _ | u <;> rcases tg with _ | g <;> simp [effective_rate, odiv, fdiv]

/-- Evaluation of the refresh branch on the specification's worked example:
prices 100/50, caps 900/100, budget 1000, resolved rate 1.3. -/
theorem refresh_example_eval :
    refresh mdExample envEcb 1000 =
      .table rowsExample (some (13/10)) (some (10/13)) "ECB (GBP base)" := by
  norm_num [refresh, fetch_data, filteredRows, insSortAsc, insertAsc, mdExample, envEcb,
    rowsExample, get_fx_gbp_usd_with_sources, fxProviders, runChain, ecbGbpAttempt,
    allocate, totalMcap, fdiv, colSum, addOpt, effective_rate, inverse_rate, List.filterMap]
  exact fun h => nomatch h

/-- Claim C1: whenever the refresh branch renders a non-empty allocation
table, the effective rate it reports (shown in the caption and written into
the Excel trailer) is the division of the summed `$ Allocation` column by
the summed `£ Allocation` column of the output rows — recomputed from the
output totals, not an echo of the resolved rate — and the reported inverse
is derived from that effective rate. -/
theorem effective_rate_from_output_totals (md : List QuoteProfile) (env : FxEnv)
    (b : ℚ) (rows : List ARow) (eff inv : Option ℚ) (src : String)
    (h : refresh md env b = .table rows eff inv src) :
    eff = odiv (colSum (rows.map fun a => a.usdAlloc))
      (colSum (rows.map fun a => a.gbpAlloc)) ∧
    inv = inverse_rate eff := by
  obtain ⟨_, _, heff, hinv, _⟩ := refresh_table_inv md env b rows eff inv src h
  exact ⟨heff.trans (effective_eq_odiv _ _), hinv⟩

/-- Witness for claim C1 on the worked example: the reported rate 1.3
equals 1300 / 1000, the ratio of the output column totals. -/
theorem effective_rate_from_output_totals_witness :
    refresh mdExample envEcb 1000 =
      .table rowsExample (some (13/10)) (some (10/13)) "ECB (GBP base)" ∧
    some ((13:ℚ)/10) = odiv (colSum (rowsExample.map fun a => a.usdAlloc))
      (colSum (rowsExample.map fun a => a.gbpAlloc)) :=
  ⟨refresh_example_eval,
    (effective_rate_from_output_totals mdExample envEcb 1000 rowsExample
      (some (13/10)) (some (10/13)) "ECB (GBP base)" refresh_example_eval).1⟩

/-- Claim C2: for every rendered non-empty allocation table the weights sum
to exactly 1, the `$ Allocation` column sums to exactly the quote budget
`homeBudget * rate`, and the `£ Allocation` column sums to exactly the home
budget.  The equalities are exact in the rational-number embedding, hence
within the 1e-9 and 1e-6 relative tolerances the specification allows for
floating-point summation. -/
theorem allocation_sums (md : List QuoteProfile) (env : FxEnv) (b : ℚ)
    (rows : List ARow) (eff inv : Option ℚ) (src : String)
    (h : refresh md env b = .table rows eff inv src) :
    colSum (rows.map fun a => a.weight) = some 1 ∧
    colSum (rows.map fun a => a.usdAlloc) =
      some (b * (get_fx_gbp_usd_with_sources env).rate) ∧
    colSum (rows.map fun a => a.gbpAlloc) = some b :=
  refresh_sums md env b rows eff inv src h

/-- Witness for claim C2 on the worked example: weights sum to 1, dollar
allocations to 1300, pound allocations to 1000. -/
theorem allocation_sums_witness :
    colSum (rowsExample.map fun a => a.weight) = some 1 ∧
    colSum (rowsExample.map fun a => a.usdAlloc) =
      some (1000 * (get_fx_gbp_usd_with_sources envEcb).rate) ∧
    colSum (rowsExample.map fun a => a.gbpAlloc) = some 1000 :=
  allocation_sums mdExample envEcb 1000 rowsExample
    (some (13/10)) (some (10/13)) "ECB (GBP base)" refresh_example_eval

/-- Claim C3: every row of a rendered allocation table satisfies the
per-row formulas — `weight = marketCap / totalMarketCap`,
`quoteBudgetShare = (homeBudget * rate) * weight`,
`homeBudgetShare = quoteBudgetShare * inverseRate`, and
`estimatedShares = quoteBudgetShare / price` — with the total market cap
recomputed from the output rows.  The specification's two-instrument
example is the accompanying witness. -/
theorem allocation_row_formulas (md : List QuoteProfile) (env : FxEnv) (b : ℚ)
    (rows : List ARow) (eff inv : Option ℚ) (src : String)
    (h : refresh md env b = .table rows eff inv src) :
    ∀ a ∈ rows,
      a.weight = fdiv a.mcap (allocTotal rows) ∧
      a.weight = some (a.mcap / allocTotal rows) ∧
      a.usdAlloc = a.weight.map
        (fun w => b * (get_fx_gbp_usd_with_sources env).rate * w) ∧
      a.gbpAlloc = a.usdAlloc.map
        (fun x => x * (get_fx_gbp_usd_with_sources env).inv) ∧
      a.estShares = a.usdAlloc.bind (fun x => fdiv x a.price) := by
  obtain ⟨hdf, hrows, _, _, _⟩ := refresh_table_inv md env b rows eff inv src h
  have hT : totalMcap (fetch_data md) ≠ 0 := ne_of_gt (totalMcap_pos md hdf)
  subst hrows
  have hTot : allocTotal (allocate (fetch_data md)
      (b * (get_fx_gbp_usd_with_sources env).rate)
      (get_fx_gbp_usd_with_sources env).inv) = totalMcap (fetch_data md) := by
    unfold allocTotal totalMcap
    rw [allocate_mcap]
  intro a ha
  obtain ⟨r, hr, rfl⟩ := List.mem_map.mp ha
  rw [hTot]
  refine ⟨rfl, ?_, rfl, rfl, rfl⟩
  show fdiv r.mcap (totalMcap (fetch_data md)) = some (r.mcap / totalMcap (fetch_data md))
  simp [fdiv, hT]

/-- Witness for claim C3: the worked example's numbers — weights 0.9/0.1,
quote shares 1170/130, estimated shares 11.7/2.6 — and the instantiated
quote-share formula at the first output row. -/
theorem allocation_row_formulas_witness :
    (rowsExample.map fun a => a.weight) = [some ((9:ℚ)/10), some (1/10)] ∧
    (rowsExample.map fun a => a.usdAlloc) = [some (1170:ℚ), some 130] ∧
    (rowsExample.map fun a => a.gbpAlloc) = [some (900:ℚ), some 100] ∧
    (rowsExample.map fun a => a.estShares) = [some ((117:ℚ)/10), some (13/5)] ∧
    ((⟨"AAA", 100, 900, some (9/10), some 1170, some 900, some (117/10)⟩ : ARow).usdAlloc =
      ((⟨"AAA", 100, 900, some (9/10), some 1170, some 900, some (117/10)⟩ : ARow).weight.map
        fun w => 1000 * (get_fx_gbp_usd_with_sources envEcb).rate * w)) := by
  refine ⟨by norm_num [rowsExample], by norm_num [rowsExample],
    by norm_num [rowsExample], by norm_num [rowsExample], ?_⟩
  exact (allocation_row_formulas mdExample envEcb 1000 rowsExample
    (some (13/10)) (some (10/13)) "ECB (GBP base)" refresh_example_eval
    ⟨"AAA", 100, 900, some (9/10), some 1170, some 900, some (117/10)⟩
    (List.mem_cons_self _ _)).2.2.1

/-- Counterexample for claim C6 as stated: on a (hypothetical) non-empty
row set of zero total market cap, the allocator raises no error and reports
no error state — it returns an ordinary one-row table whose derived columns
are all non-finite (`none` models the NaN/inf of pandas division by zero).
There is no `DivisionInvalid` error value anywhere in the code. -/
theorem zero_mcap_no_error_counterexample :
    totalMcap [rowZero] = 0 ∧
    ([rowZero] : List Row) ≠ [] ∧
    allocate [rowZero] 1350 (20/27) =
      [⟨"ZZZ", 10, 0, none, none, none, none⟩] ∧
    (allocate [rowZero] 1350 (20/27)).length = 1 := by
  refine ⟨by norm_num [totalMcap, rowZero], by simp, ?_, ?_⟩ <;>
    norm_num [allocate, totalMcap, fdiv, rowZero]

/-- Claim C6 (amended): a non-empty instrument set with zero total market
cap can never reach the allocation: `fetch_data` keeps only rows with
strictly positive price and market cap, so every non-empty fetched
DataFrame has strictly positive total market cap and every derived column
of its allocation is finite.  (The code has no `DivisionInvalid` error
state; on a zero-total input the pandas division would silently produce
non-finite values, as the counterexample shows, but such inputs are
unreachable.) -/
theorem fetched_total_mcap_pos (md : List QuoteProfile) (B u : ℚ)
    (h : fetch_data md ≠ []) :
    0 < totalMcap (fetch_data md) ∧
    ∀ a ∈ allocate (fetch_data md) B u,
      a.weight ≠ none ∧ a.usdAlloc ≠ none ∧ a.gbpAlloc ≠ none ∧
      a.estShares ≠ none := by
  have hT := totalMcap_pos md h
  refine ⟨hT, ?_⟩
  intro a ha
  rw [allocate_eval (fetch_data md) B u (ne_of_gt hT) (fun r hr =>
    ne_of_gt (mem_filteredRows_pos md r ((mem_fetch_data md r).mp hr)).1)] at ha
  obtain ⟨r, hr, rfl⟩ := List.mem_map.mp ha
  simp

/-- Witness for claim C6's amended theorem on the worked example. -/
theorem fetched_total_mcap_pos_witness :
    fetch_data mdExample ≠ [] ∧ 0 < totalMcap (fetch_data mdExample) := by
  have hne : fetch_data mdExample ≠ [] := by
    norm_num [fetch_data, filteredRows, insSortAsc, insertAsc, mdExample, List.filterMap]
    exact fun h => nomatch h
  exact ⟨hne, (fetched_total_mcap_pos mdExample 1300 (10/13) hne).1⟩

/-- Claim C8: if no ticker yields both a positive price and a positive
market cap, the filtered row set is empty, `fetch_data` returns the empty
DataFrame, and the refresh branch renders the explicit no-data state (the
warning of app.py line 168 plus an empty table) — an ordinary value of the
view type, not a raised error.  The resolver hypothesis is needed because
the code resolves the FX rate (app.py line 164) before the `df.empty`
check of line 167: a resolver crash aborts the refresh before the no-data
state is rendered. -/
theorem empty_set_no_data (md : List QuoteProfile) (env : FxEnv) (b : ℚ)
    (hfx : get_fx_gbp_usd_with_sources env ≠ FxResult.raised)
    (h : ∀ e ∈ md, ¬(0 < e.priceRaw ∧ 0 < e.mcapBilRaw)) :
    filteredRows md = [] ∧ fetch_data md = [] ∧ refresh md env b = .noData := by
  have hf : filteredRows md = [] := by
    rw [filteredRows, List.filterMap_eq_nil_iff]
    intro e he
    rw [if_neg (h e he)]
  have hd : fetch_data md = [] := by
    rw [fetch_data, hf]
    rfl
  refine ⟨hf, hd, ?_⟩
  rcases hres : get_fx_gbp_usd_with_sources env with fx | _
  · simp [refresh, hres, hd]
  · exact absurd hres hfx

/-- Witness for claim C8 at concrete market data where one ticker has a
zero price and the other a zero market cap. -/
theorem empty_set_no_data_witness :
    fetch_data mdNoData = [] ∧ refresh mdNoData envEcb 37000 = .noData := by
  have hfx : get_fx_gbp_usd_with_sources envEcb ≠ FxResult.raised := by
    norm_num [get_fx_gbp_usd_with_sources, fxProviders, runChain, ecbGbpAttempt, envEcb]
    exact fun hc => nomatch hc
  have hh : ∀ e ∈ mdNoData, ¬(0 < e.priceRaw ∧ 0 < e.mcapBilRaw) := by
    intro e he
    fin_cases he <;> norm_num [mdNoData]
  obtain ⟨_, h2, h3⟩ := empty_set_no_data mdNoData envEcb 37000 hfx hh
  exact ⟨h2, h3⟩

/-- Claim C10: the budget widget admits a budget of 0; with a zero budget
the home-currency total of a rendered table is zero and the guarded
effective-rate expression yields NaN (`none`) instead of raising a
division-by-zero error; and the inverse-rate expression yields NaN whenever
the effective rate is not a number strictly greater than zero.  Both
expressions are total functions in the embedding — no division-by-zero
exception exists on any path. -/
theorem division_guards :
    budgetMin = 0 ∧
    (∀ tu : Option ℚ, effective_rate tu (some 0) = none) ∧
    (∀ (md : List QuoteProfile) (env : FxEnv) (rows : List ARow)
      (eff inv : Option ℚ) (src : String),
      refresh md env 0 = .table rows eff inv src → eff = none ∧ inv = none) ∧
    (∀ er : Option ℚ, (∀ e, er = some e → ¬ 0 < e) → inverse_rate er = none) := by
  refine ⟨rfl, ?_, ?_, ?_⟩
  · intro tu
    rcases tu with _ | u <;> simp [effective_rate]
  · intro md env rows eff inv src h
    obtain ⟨_, _, heff, hinv, _⟩ := refresh_table_inv md env 0 rows eff inv src h
    obtain ⟨_, _, hg⟩ := refresh_sums md env 0 rows eff inv src h
    have he : eff = none := by
      rw [heff, hg]
      rcases colSum (rows.map fun a => a.usdAlloc) with _ | u <;> simp [effective_rate]
    refine ⟨he, ?_⟩
    rw [hinv, he]
    rfl
  · intro er her
    rcases er with _ | e
    · rfl
    · simp [inverse_rate, her e rfl]

/-- Witness for claim C10: the worked example at budget 0 renders a table
whose effective and inverse rates are both NaN, and a negative effective
rate maps to a NaN inverse. -/
theorem division_guards_witness :
    refresh mdExample envEcb 0 =
      .table rowsZeroBudget none none "ECB (GBP base)" ∧
    ((none : Option ℚ) = none ∧ (none : Option ℚ) = none) ∧
    inverse_rate (some (-(1:ℚ))) = none := by
  have hre : refresh mdExample envEcb 0 =
      .table rowsZeroBudget none none "ECB (GBP base)" := by
    norm_num [refresh, fetch_data, filteredRows, insSortAsc, insertAsc, mdExample, envEcb,
      rowsZeroBudget, get_fx_gbp_usd_with_sources, fxProviders, runChain, ecbGbpAttempt,
      allocate, totalMcap, fdiv, colSum, addOpt, effective_rate, inverse_rate, List.filterMap]
    exact fun h => nomatch h
  refine ⟨hre,
    division_guards.2.2.1 mdExample envEcb rowsZeroBudget none none "ECB (GBP base)" hre,
    division_guards.2.2.2 (some (-1)) ?_⟩
  intro e he
  obtain rfl := Option.some.inj he
  norm_num

end Top10
